import Mathlib

/-!
Verification development for the Alpha+++ process-discovery core
(`pm_rust/src/alphappp/full.rs`).

The definitions below are a shallow embedding of `alphappp_discover_petri_net`
and its helpers.  Code that lives in `full.rs` itself (transition creation,
candidate-to-place assembly, the orphan-silent sweep, the weighted activity
counts, the config structs) is translated statement by statement.  Repository
code that `full.rs` only calls (the Petri-net container, start/end
augmentation, DFG construction, DFG filtering, the two log-repair passes,
candidate building and pruning, JSON (de)serialization) is modelled from the
specification; each such definition carries a doc comment saying so.

Machine integers (`usize`, `u64`, `i128`) are modelled as `Nat`/`Int` (no
overflow is reachable in the modelled code paths), `f32` quantities as `ℚ`,
and panicking operations (`unwrap`, out-of-range indexing) as `Option`
returning `none`.  Wall-clock timing (`AlgoDuration` measurement) is real
time and is not modelled; the `AlgoDuration` struct itself is modelled as
data for the JSON claims.
-/

/-- Modelled from the spec: the reserved `START_EVENT` constant (spec section 6,
"Reserved names"); its concrete value is defined outside `src`, any fixed
string works for the claims. -/
def START_EVENT : String := "__START__"

/-- Modelled from the spec: the reserved `END_EVENT` constant (spec section 6). -/
def END_EVENT : String := "__END__"

/-- Modelled from the spec: the silent-activity name prefix
`SILENT_ACT_PREFIX` from `log_repair` (spec sections 3 and 6); the concrete
value is defined outside `src`. -/
def SILENT_ACT_PREFIX : String := "__SILENT__"

/-- Modelled from the spec: `ArcType` of `petri_net_struct.rs` (not under
`src`): an arc is directed transition-to-place or place-to-transition
(spec section 3).  Ids are modelled as `Nat`. -/
inductive ArcType where
  | transition_to_place (t : Nat) (p : Nat)
  | place_to_transition (p : Nat) (t : Nat)
deriving DecidableEq, Repr

/-- Modelled from the spec: the `PetriNet` container of `petri_net_struct.rs`
(not under `src`): transitions with optional labels, places, typed arcs and
optional initial/final markings (spec sections 3 and 6).  Fresh id generation
(UUIDs in the source) is modelled by the counter: each `add_transition` /
`add_place` hands out the current counter value and increments it.  A marking
is a total function from place id to token count (absent key = zero). -/
structure PetriNet where
  counter : Nat
  transitions : List (Nat × Option String)
  places : List Nat
  arcs : List ArcType
  initial_marking : Option (Nat → Nat)
  final_markings : Option (List (Nat → Nat))

/-- Modelled from the spec: `PetriNet::new()`, the empty net. -/
def PetriNet.new : PetriNet :=
  { counter := 0, transitions := [], places := [], arcs := [],
    initial_marking := none, final_markings := none }

/-- Modelled from the spec: `PetriNet::add_transition`, returning the fresh id. -/
def PetriNet.add_transition (pn : PetriNet) (label : Option String) :
    PetriNet × Nat :=
  ({ pn with counter := pn.counter + 1,
             transitions := pn.transitions ++ [(pn.counter, label)] },
   pn.counter)

/-- Modelled from the spec: `PetriNet::add_place`, returning the fresh id. -/
def PetriNet.add_place (pn : PetriNet) : PetriNet × Nat :=
  ({ pn with counter := pn.counter + 1, places := pn.places ++ [pn.counter] },
   pn.counter)

/-- Modelled from the spec: `PetriNet::add_arc`. -/
def PetriNet.add_arc (pn : PetriNet) (a : ArcType) : PetriNet :=
  { pn with arcs := pn.arcs ++ [a] }

/-- The place an arc touches. -/
def arc_place : ArcType → Nat
  | ArcType.transition_to_place _ p => p
  | ArcType.place_to_transition p _ => p

/-- The place an incoming arc of transition `t` comes from, if `a` is one. -/
def pre_arc (t : Nat) : ArcType → Option Nat
  | ArcType.place_to_transition p t2 => if t2 = t then some p else none
  | ArcType.transition_to_place _ _ => none

/-- The place an outgoing arc of transition `t` goes to, if `a` is one. -/
def post_arc (t : Nat) : ArcType → Option Nat
  | ArcType.transition_to_place t2 p => if t2 = t then some p else none
  | ArcType.place_to_transition _ _ => none

/-- Modelled from the spec: the preset of a transition is the list of places
with an arc into the transition (spec section 3); it reads only the arcs. -/
def PetriNet.preset_of_transition (pn : PetriNet) (t : Nat) : List Nat :=
  pn.arcs.filterMap (pre_arc t)

/-- Modelled from the spec: the postset of a transition is the list of places
with an arc out of the transition (spec section 3). -/
def PetriNet.postset_of_transition (pn : PetriNet) (t : Nat) : List Nat :=
  pn.arcs.filterMap (post_arc t)

/-- Modelled from the spec: `EventLogActivityProjection` (spec sections 3 and
6): a parallel vector of activity names and a multiset of traces, each trace a
sequence of activity indices with a multiplicity weight.  The `act_to_index`
map is kept consistent with the vector (spec invariant), so lookups are
modelled as first-index search in the vector. -/
structure EventLogActivityProjection where
  activities : List String
  traces : List (List Nat × Nat)

/-- Modelled from the spec: the `act_to_index.get(name)` lookup. -/
def EventLogActivityProjection.act_index (p : EventLogActivityProjection)
    (name : String) : Option Nat :=
  p.activities.findIdx? (fun a => a == name)

/-- Modelled from the spec: `add_start_end_acts_proj` (spec section 4.1, not
under `src`): append the reserved Start/End activities to the index space if
absent and bracket every trace with them. -/
def add_start_end_acts_proj (p : EventLogActivityProjection) :
    EventLogActivityProjection :=
  let acts1 := if p.activities.contains START_EVENT then p.activities
               else p.activities ++ [START_EVENT]
  let acts2 := if acts1.contains END_EVENT then acts1
               else acts1 ++ [END_EVENT]
  let si := acts2.findIdx (fun a => a == START_EVENT)
  let ei := acts2.findIdx (fun a => a == END_EVENT)
  { activities := acts2,
    traces := p.traces.map (fun tw => (si :: tw.1 ++ [ei], tw.2)) }

/-- Modelled from the spec: the DFG edge map (spec section 3), as an
association list from `(u, v)` to its accumulated weight, one entry per edge. -/
structure ActivityProjectionDFG where
  edges : List ((Nat × Nat) × Nat)

/-- Modelled from the spec: add weight `w` to edge `e` of the edge map. -/
def bump_edge : List ((Nat × Nat) × Nat) → (Nat × Nat) → Nat →
    List ((Nat × Nat) × Nat)
  | [], e, w => [(e, w)]
  | ew :: rest, e, w =>
    if ew.1 = e then (ew.1, ew.2 + w) :: rest else ew :: bump_edge rest e w

/-- Adjacent pairs of a trace. -/
def trace_pairs : List Nat → List (Nat × Nat)
  | [] => []
  | [_] => []
  | a :: b :: rest => (a, b) :: trace_pairs (b :: rest)

/-- Modelled from the spec: `ActivityProjectionDFG::from_event_log_projection`
(spec section 4.2, not under `src`): for each trace `(t, w)` and each adjacent
pair, add `w` to that edge. -/
def ActivityProjectionDFG.from_event_log_projection
    (p : EventLogActivityProjection) : ActivityProjectionDFG :=
  ⟨p.traces.foldl
    (fun es tw => (trace_pairs tw.1).foldl (fun es2 e => bump_edge es2 e tw.2) es)
    []⟩

/-- Sum of all DFG edge weights (`dfg.edges.values().sum()`). -/
def ActivityProjectionDFG.dfg_sum (d : ActivityProjectionDFG) : Nat :=
  (d.edges.map (fun ew => ew.2)).sum

/-- Modelled from the spec: the largest outgoing edge weight of `u` (spec
section 4.5). -/
def ActivityProjectionDFG.out_max (d : ActivityProjectionDFG) (u : Nat) : Nat :=
  ((d.edges.filter (fun ew => ew.1.1 == u)).map (fun ew => ew.2)).foldl max 0

/-- Modelled from the spec: the largest incoming edge weight of `v` (spec
section 4.5). -/
def ActivityProjectionDFG.in_max (d : ActivityProjectionDFG) (v : Nat) : Nat :=
  ((d.edges.filter (fun ew => ew.1.2 == v)).map (fun ew => ew.2)).foldl max 0

/-- Modelled from the spec: `filter_dfg` (spec section 4.5, not under `src`):
keep an edge iff its weight meets the absolute threshold and the relative
threshold against the stronger endpoint max.  The `f32` relative threshold is
modelled exactly as a rational. -/
def filter_dfg (d : ActivityProjectionDFG) (abs_thresh : Nat) (rel_thresh : ℚ) :
    ActivityProjectionDFG :=
  ⟨d.edges.filter (fun ew =>
    decide (abs_thresh ≤ ew.2) &&
    decide (rel_thresh * (max (d.out_max ew.1.1) (d.in_max ew.1.2) : ℚ) ≤ (ew.2 : ℚ)))⟩

/-- The weighted per-activity counts of `full.rs` lines 143 to 148: a vector
of `i128` counters, one per activity, where each trace `(t, w)` adds `w` at
position `act` for every `act` in `t`.  The source indexes with
`act_count[*act] += *w`, which panics out of range; the projection invariant
(spec section 3) keeps every trace index in range, and `List.set` is the
identity out of range, so the in-range behaviour is identical. -/
def act_count_of (p : EventLogActivityProjection) : List Int :=
  p.traces.foldl
    (fun acc tw =>
      tw.1.foldl (fun acc2 act => acc2.set act (acc2.getD act 0 + (tw.2 : Int))) acc)
    (List.replicate p.activities.length 0)

/-- The `.ceil() as u64` conversion applied to the loop/skip thresholds in
`full.rs` lines 89 and 101 (negative values saturate to zero, as the `as u64`
cast does). -/
def ceil_u64 (q : ℚ) : Nat := (Int.ceil q).toNat

/-- The `AlphaPPPConfig` struct of `full.rs` lines 42 to 51; `f32` fields are
modelled as `ℚ`, the `u64` field as `Nat`. -/
structure AlphaPPPConfig where
  balance_thresh : ℚ
  fitness_thresh : ℚ
  replay_thresh : ℚ
  log_repair_skip_df_thresh_rel : ℚ
  log_repair_loop_df_thresh_rel : ℚ
  absolute_df_clean_thresh : Nat
  relative_df_clean_thresh : ℚ
deriving DecidableEq, Repr

/-- The `AlgoDuration` struct of `full.rs` lines 23 to 32 (seven `f32`
duration fields, modelled as `ℚ`); only its JSON round-trip behaviour is
claimed, the timing itself is wall-clock and not modelled. -/
structure AlgoDuration where
  loop_repair : ℚ
  skip_repair : ℚ
  filter_dfg : ℚ
  cnd_building : ℚ
  prune_cnd : ℚ
  build_net : ℚ
  total : ℚ
deriving DecidableEq, Repr

/-- The `act_name.starts_with(SILENT_ACT_PREFIX)` test of `full.rs` line 201,
modelled on the character list so that it evaluates inside the kernel. -/
def starts_with_silent (s : String) : Bool :=
  SILENT_ACT_PREFIX.data.isPrefixOf s.data

/-- The lookup `transitions[*in_act].unwrap()` of `full.rs` lines 220 and 230:
`none` models the panic, both on an out-of-range index and on a `None` entry. -/
def tr_lookup (ts : List (Option Nat)) (a : Nat) : Option Nat :=
  (ts.get? a).bind id

/-- Increment a marking at one place, as
`*marking.entry(place_id).or_insert(0) += 1` does in `full.rs` lines 217/227. -/
def bump (m : Nat → Nat) (p : Nat) : Nat → Nat :=
  fun q => if q = p then m q + 1 else m q

/-- The transition-creation map of `full.rs` lines 195 to 212: one transition
per activity unless the activity is the reserved Start or End event; the label
is `None` when the name starts with the silent prefix, the name itself
otherwise.  The stateful `map` over the activities vector is modelled as a
recursion threading the net. -/
def mk_transitions (pn : PetriNet) : List String → PetriNet × List (Option Nat)
  | [] => (pn, [])
  | act_name :: rest =>
    if act_name = START_EVENT ∨ act_name = END_EVENT then
      let r := mk_transitions pn rest
      (r.1, none :: r.2)
    else
      let ti := pn.add_transition
        (if starts_with_silent act_name then none else some act_name)
      let r := mk_transitions ti.1 rest
      (r.1, some ti.2 :: r.2)

/-- The `a.iter().for_each` loop of `full.rs` lines 215 to 224: for each
`in_act` of the candidate's `A` side, either bump the initial marking at the
fresh place (when `in_act` is the Start index) or add an arc from
`transitions[in_act]` to the place, panicking (`none`) when that lookup fails. -/
def wire_ins (start_act : Nat) (ts : List (Option Nat)) (pid : Nat) :
    PetriNet → (Nat → Nat) → List Nat → Option (PetriNet × (Nat → Nat))
  | pn, m, [] => some (pn, m)
  | pn, m, a :: rest =>
    if a = start_act then
      wire_ins start_act ts pid pn (bump m pid) rest
    else
      match tr_lookup ts a with
      | some t =>
        wire_ins start_act ts pid
          (pn.add_arc (ArcType.transition_to_place t pid)) m rest
      | none => none

/-- The `b.iter().for_each` loop of `full.rs` lines 225 to 234, symmetric to
`wire_ins` with the final marking and place-to-transition arcs. -/
def wire_outs (end_act : Nat) (ts : List (Option Nat)) (pid : Nat) :
    PetriNet → (Nat → Nat) → List Nat → Option (PetriNet × (Nat → Nat))
  | pn, m, [] => some (pn, m)
  | pn, m, b :: rest =>
    if b = end_act then
      wire_outs end_act ts pid pn (bump m pid) rest
    else
      match tr_lookup ts b with
      | some t =>
        wire_outs end_act ts pid
          (pn.add_arc (ArcType.place_to_transition pid t)) m rest
      | none => none

/-- The assembly state threaded through the candidate loop of `full.rs` lines
213 to 235: the net under construction and the two markings. -/
structure AssemblyState where
  pn : PetriNet
  initial_marking : Nat → Nat
  final_marking : Nat → Nat

/-- The body of the candidate loop (`full.rs` lines 213 to 235): one fresh
place per candidate, then the two wiring loops. -/
def add_candidate (start_act end_act : Nat) (ts : List (Option Nat))
    (st : AssemblyState) (cnd : List Nat × List Nat) : Option AssemblyState :=
  let pr := st.pn.add_place
  match wire_ins start_act ts pr.2 pr.1 st.initial_marking cnd.1 with
  | none => none
  | some im =>
    match wire_outs end_act ts pr.2 im.1 st.final_marking cnd.2 with
    | none => none
    | some fm => some ⟨fm.1, im.2, fm.2⟩

/-- The full `sel.iter().for_each` loop over the selected candidates. -/
def add_candidates (start_act end_act : Nat) (ts : List (Option Nat)) :
    AssemblyState → List (List Nat × List Nat) → Option AssemblyState
  | st, [] => some st
  | st, c :: rest =>
    match add_candidate start_act end_act ts st c with
    | none => none
    | some st1 => add_candidates start_act end_act ts st1 rest

/-- The sweep predicate of `full.rs` lines 238 to 242: a transition is deleted
iff its label is absent and both its postset and its preset are empty. -/
def is_orphan_silent (pn : PetriNet) (tl : Nat × Option String) : Bool :=
  tl.2.isNone && (pn.postset_of_transition tl.1).isEmpty &&
    (pn.preset_of_transition tl.1).isEmpty

/-- The orphan-silent sweep of `full.rs` lines 237 to 245: the source iterates
over a copy of the transition map and removes matching entries; since the
predicate reads only the arcs, which the removals leave untouched, the result
is exactly a filter of the transition map. -/
def sweep (pn : PetriNet) : PetriNet :=
  { pn with transitions :=
      pn.transitions.filter (fun tl => !(is_orphan_silent pn tl)) }

/-- The state the candidate loop starts from (`full.rs` lines 192 to 212):
the net holding one transition per non-reserved activity and two empty
markings. -/
def init_state (activities : List String) : AssemblyState :=
  ⟨(mk_transitions PetriNet.new activities).1, fun _ => 0, fun _ => 0⟩

/-- The Petri-net assembly of `full.rs` lines 192 to 248: create the
transitions, run the candidate loop, sweep orphan silent transitions, then
store the two markings.  `none` models a panic inside the candidate loop. -/
def build_net (activities : List String) (sel : List (List Nat × List Nat))
    (start_act end_act : Nat) : Option PetriNet :=
  let ts := (mk_transitions PetriNet.new activities).2
  match add_candidates start_act end_act ts (init_state activities) sel with
  | none => none
  | some st =>
    let pn2 := sweep st.pn
    some { pn2 with initial_marking := some st.initial_marking,
                    final_markings := some [st.final_marking] }

/-- Modelled from the spec: the four pipeline collaborators of `full.rs` that
are repository code not under `src` — the loop and skip log-repair passes
(spec sections 4.3 and 4.4), candidate building (section 4.6) and candidate
pruning (section 4.7) — taken as parameters with the interfaces the spec
states (repairs take a projection and a threshold and return the rewritten
projection plus the added activity names; pruning takes the candidates, the
three thresholds, the weighted activity counts and the repaired projection). -/
structure AlphaPPPParts where
  add_artificial_acts_for_loops :
    EventLogActivityProjection → Nat → EventLogActivityProjection × List String
  add_artificial_acts_for_skips :
    EventLogActivityProjection → Nat → EventLogActivityProjection × List String
  build_candidates : ActivityProjectionDFG → List (List Nat × List Nat)
  prune_candidates : List (List Nat × List Nat) → ℚ → ℚ → ℚ → List Int →
    EventLogActivityProjection → List (List Nat × List Nat)

/-- The discovery pipeline `alphappp_discover_petri_net` of `full.rs` lines 60
to 258, minus the wall-clock timing and console printing: augment with
Start/End, build the DFG and its mean weight, look up the Start/End indices
(`unwrap` modelled as `Option`), run the two repairs with their ceiled
thresholds, compute the weighted activity counts, rebuild and filter the DFG,
build and prune candidates, and assemble the net.  The `f32` mean is modelled
as exact rational arithmetic (`0 / 0 = 0` here where the source produces NaN,
whose ceiled `u64` cast is also 0). -/
def alphappp_discover_petri_net (parts : AlphaPPPParts)
    (log_proj : EventLogActivityProjection) (config : AlphaPPPConfig) :
    Option PetriNet :=
  let lp0 := add_start_end_acts_proj log_proj
  let dfg0 := ActivityProjectionDFG.from_event_log_projection lp0
  let mean_dfg : ℚ := (dfg0.dfg_sum : ℚ) / (dfg0.edges.length : ℚ)
  match lp0.act_index START_EVENT, lp0.act_index END_EVENT with
  | some start_act, some end_act =>
    let rl := parts.add_artificial_acts_for_loops lp0
      (ceil_u64 (config.log_repair_loop_df_thresh_rel * mean_dfg))
    let rs := parts.add_artificial_acts_for_skips rl.1
      (ceil_u64 (config.log_repair_skip_df_thresh_rel * mean_dfg))
    let lp2 := rs.1
    let act_count := act_count_of lp2
    let dfg1 := ActivityProjectionDFG.from_event_log_projection lp2
    let dfg2 := filter_dfg dfg1 config.absolute_df_clean_thresh
      config.relative_df_clean_thresh
    let cnds := parts.build_candidates dfg2
    let sel := parts.prune_candidates cnds config.balance_thresh
      config.fitness_thresh config.replay_thresh act_count lp2
    build_net lp2.activities sel start_act end_act
  | _, _ => none

/-- Validity of one candidate with respect to the transition table: every `A`
element other than the Start index and every `B` element other than the End
index is an in-range index whose table entry is `Some`.  This is the
precondition under which the `unwrap` lookups of the assembly cannot panic. -/
def valid_cnd (ts : List (Option Nat)) (start_act end_act : Nat)
    (c : List Nat × List Nat) : Prop :=
  (∀ a ∈ c.1, a ≠ start_act → (tr_lookup ts a).isSome = true) ∧
  (∀ b ∈ c.2, b ≠ end_act → (tr_lookup ts b).isSome = true)

/-- Validity of a whole selected-candidate list. -/
def valid_sel (ts : List (Option Nat)) (start_act end_act : Nat)
    (sel : List (List Nat × List Nat)) : Prop :=
  ∀ c ∈ sel, valid_cnd ts start_act end_act c

/-- Closed form of the arcs one candidate contributes: a transition-to-place
arc for every non-Start element of `A`, then a place-to-transition arc for
every non-End element of `B`. -/
def cand_arcs (ts : List (Option Nat)) (start_act end_act pid : Nat)
    (c : List Nat × List Nat) : List ArcType :=
  (c.1.filter (fun a => a != start_act)).map
    (fun a => ArcType.transition_to_place ((tr_lookup ts a).getD 0) pid) ++
  (c.2.filter (fun b => b != end_act)).map
    (fun b => ArcType.place_to_transition pid ((tr_lookup ts b).getD 0))

/-- Closed form of the arcs a candidate list contributes when its first
candidate's place gets id `c0`. -/
def sel_arcs (ts : List (Option Nat)) (start_act end_act : Nat) :
    Nat → List (List Nat × List Nat) → List ArcType
  | _, [] => []
  | c0, c :: rest =>
    cand_arcs ts start_act end_act c0 c ++ sel_arcs ts start_act end_act (c0 + 1) rest

/-- Closed form of the initial-marking tokens a candidate list contributes at
a given place id (place ids start at `c0`): each candidate puts one token per
occurrence of the Start index in its `A` side on its own place. -/
def init_contrib (start_act : Nat) : Nat → List (List Nat × List Nat) → Nat → Nat
  | _, [], _ => 0
  | c0, c :: rest, q =>
    (if q = c0 then c.1.count start_act else 0) +
      init_contrib start_act (c0 + 1) rest q

/-- Closed form of the final-marking tokens, symmetric to `init_contrib`. -/
def final_contrib (end_act : Nat) : Nat → List (List Nat × List Nat) → Nat → Nat
  | _, [], _ => 0
  | c0, c :: rest, q =>
    (if q = c0 then c.2.count end_act else 0) +
      final_contrib end_act (c0 + 1) rest q

/-- The place ids the candidate loop allocates: `c0, c0+1, ...`, one per
candidate. -/
def block_places (c0 n : Nat) : List Nat :=
  (List.range n).map (fun i => c0 + i)

/-- Renaming of place ids inside an arc (transition ids untouched), used to
state structural equality of nets up to fresh place ids. -/
def arc_rename (rho : Nat → Nat) : ArcType → ArcType
  | ArcType.transition_to_place t p => ArcType.transition_to_place t (rho p)
  | ArcType.place_to_transition p t => ArcType.place_to_transition (rho p) t

/-- Closed form of the transition table entries `mk_transitions` produces when
the counter starts at `c`. -/
def tid_block (c : Nat) : List String → List (Option Nat)
  | [] => []
  | a :: rest =>
    if a = START_EVENT ∨ a = END_EVENT then none :: tid_block c rest
    else some c :: tid_block (c + 1) rest

/-- Closed form of the transitions `mk_transitions` appends to the net when
the counter starts at `c`. -/
def trans_block (c : Nat) : List String → List (Nat × Option String)
  | [] => []
  | a :: rest =>
    if a = START_EVENT ∨ a = END_EVENT then trans_block c rest
    else
      (c, if starts_with_silent a then none else some a) ::
        trans_block (c + 1) rest

/-- Number of non-reserved activities in a list. -/
def nonres_count (acts : List String) : Nat :=
  (acts.filter (fun a => !(a == START_EVENT || a == END_EVENT))).length

/-- Closed form of the net the candidate loop has built right before the
orphan-silent sweep runs: all transitions, one place per selected candidate
and all candidate arcs are present (markings are attached after the sweep). -/
def pre_sweep_net (acts : List String) (sel : List (List Nat × List Nat))
    (sa ea : Nat) : PetriNet :=
  { counter := nonres_count acts + sel.length,
    transitions := trans_block 0 acts,
    places := block_places (nonres_count acts) sel.length,
    arcs := sel_arcs (tid_block 0 acts) sa ea (nonres_count acts) sel,
    initial_marking := none,
    final_markings := none }

/-- Modelled from the spec: a JSON value, for the `serde_json` round-trip of
the two config structs (spec section 6: a flat JSON object with the exact
field names); numbers are modelled as exact rationals. -/
inductive JsonValue where
  | num (q : ℚ)
  | str (s : String)
  | bool (b : Bool)
  | null
  | arr (xs : List JsonValue)
  | obj (fields : List (String × JsonValue))

/-- Field lookup in a JSON object. -/
def json_lookup (fs : List (String × JsonValue)) (k : String) : Option JsonValue :=
  (fs.find? (fun f => f.1 == k)).map (fun f => f.2)

/-- A JSON number read as a rational (any other value is a type error). -/
def json_num : JsonValue → Option ℚ
  | JsonValue.num q => some q
  | _ => none

/-- A JSON number read as a `u64` (non-integral or negative values are
rejected, as serde does). -/
def json_u64 (j : JsonValue) : Option Nat :=
  match json_num j with
  | some q => if q.den = 1 ∧ 0 ≤ q.num then some q.num.toNat else none
  | none => none

/-- Modelled from the spec: `serde_json::to_string` on `AlphaPPPConfig`
(`full.rs` lines 53 to 55): a flat object with the seven field names in
declaration order. -/
def AlphaPPPConfig.to_json (c : AlphaPPPConfig) : JsonValue :=
  JsonValue.obj
    [("balance_thresh", JsonValue.num c.balance_thresh),
     ("fitness_thresh", JsonValue.num c.fitness_thresh),
     ("replay_thresh", JsonValue.num c.replay_thresh),
     ("log_repair_skip_df_thresh_rel", JsonValue.num c.log_repair_skip_df_thresh_rel),
     ("log_repair_loop_df_thresh_rel", JsonValue.num c.log_repair_loop_df_thresh_rel),
     ("absolute_df_clean_thresh", JsonValue.num (c.absolute_df_clean_thresh : ℚ)),
     ("relative_df_clean_thresh", JsonValue.num c.relative_df_clean_thresh)]

/-- Modelled from the spec: `serde_json::from_str` for `AlphaPPPConfig`
followed by the `.unwrap()` of `full.rs` lines 56 to 58; the deserialization
error (missing field, wrong type, non-object input) becomes `none`, modelling
the panic. -/
def AlphaPPPConfig.from_json : JsonValue → Option AlphaPPPConfig
  | JsonValue.obj fs =>
    match (json_lookup fs "balance_thresh").bind json_num,
        (json_lookup fs "fitness_thresh").bind json_num,
        (json_lookup fs "replay_thresh").bind json_num,
        (json_lookup fs "log_repair_skip_df_thresh_rel").bind json_num,
        (json_lookup fs "log_repair_loop_df_thresh_rel").bind json_num,
        (json_lookup fs "absolute_df_clean_thresh").bind json_u64,
        (json_lookup fs "relative_df_clean_thresh").bind json_num with
    | some b, some f, some r, some s, some l, some a, some rel =>
      some ⟨b, f, r, s, l, a, rel⟩
    | _, _, _, _, _, _, _ => none
  | _ => none

/-- Modelled from the spec: `serde_json::to_string` on `AlgoDuration`
(`full.rs` lines 34 to 36). -/
def AlgoDuration.to_json (d : AlgoDuration) : JsonValue :=
  JsonValue.obj
    [("loop_repair", JsonValue.num d.loop_repair),
     ("skip_repair", JsonValue.num d.skip_repair),
     ("filter_dfg", JsonValue.num d.filter_dfg),
     ("cnd_building", JsonValue.num d.cnd_building),
     ("prune_cnd", JsonValue.num d.prune_cnd),
     ("build_net", JsonValue.num d.build_net),
     ("total", JsonValue.num d.total)]

/-- Modelled from the spec: `serde_json::from_str` for `AlgoDuration` followed
by the `.unwrap()` of `full.rs` lines 37 to 39; `none` models the panic. -/
def AlgoDuration.from_json : JsonValue → Option AlgoDuration
  | JsonValue.obj fs =>
    match (json_lookup fs "loop_repair").bind json_num,
        (json_lookup fs "skip_repair").bind json_num,
        (json_lookup fs "filter_dfg").bind json_num,
        (json_lookup fs "cnd_building").bind json_num,
        (json_lookup fs "prune_cnd").bind json_num,
        (json_lookup fs "build_net").bind json_num,
        (json_lookup fs "total").bind json_num with
    | some lr, some sr, some fd, some cb, some pc, some bn, some t =>
      some ⟨lr, sr, fd, cb, pc, bn, t⟩
    | _, _, _, _, _, _, _ => none
  | _ => none

/-- Modelled from the spec: pipeline collaborators specialized to an empty
log — on a projection with zero traces the repair passes find no loop or skip
patterns and insert nothing (spec sections 4.3 and 4.4), and candidate
building/pruning over an empty filtered DFG yields no candidates (spec
sections 4.6 and 4.7). -/
def empty_log_parts : AlphaPPPParts :=
  { add_artificial_acts_for_loops := fun p _ => (p, []),
    add_artificial_acts_for_skips := fun p _ => (p, []),
    build_candidates := fun _ => [],
    prune_candidates := fun _ _ _ _ _ _ => [] }

/-! ### Helper lemmas for the weighted activity counts -/

theorem foldl_set_length (w : Int) : ∀ (t : List Nat) (acc : List Int),
    (t.foldl (fun a act => a.set act (a.getD act 0 + w)) acc).length = acc.length := by
  intro t
  induction t with
  | nil => intro acc; rfl
  | cons a rest ih => intro acc; rw [List.foldl_cons, ih, List.length_set]

theorem foldl_set_getD (w : Int) (i : Nat) : ∀ (t : List Nat) (acc : List Int),
    i < acc.length →
    (t.foldl (fun a act => a.set act (a.getD act 0 + w)) acc).getD i 0
      = acc.getD i 0 + w * (t.count i : Int) := by
  intro t
  induction t with
  | nil => intro acc _; simp
  | cons a rest ih =>
    intro acc h
    rw [List.foldl_cons, ih _ (by simpa using h)]
    by_cases hai : a = i
    · subst hai
      have hset : (acc.set a (acc.getD a 0 + w)).getD a 0 = acc.getD a 0 + w := by
        simp [List.getD_eq_getElem?_getD, List.getElem?_set_self h]
      rw [hset]
      have hc : ((a :: rest).count a : Int) = (rest.count a : Int) + 1 := by
        rw [List.count_cons_self]; push_cast; ring
      rw [hc]; ring
    · have hset : (acc.set a (acc.getD a 0 + w)).getD i 0 = acc.getD i 0 := by
        simp [List.getD_eq_getElem?_getD, List.getElem?_set_ne hai]
      rw [hset, List.count_cons_of_ne (Ne.symm hai)]

theorem act_count_fold_length : ∀ (trs : List (List Nat × Nat)) (acc : List Int),
    (trs.foldl
      (fun acc tw => tw.1.foldl (fun a act => a.set act (a.getD act 0 + (tw.2 : Int))) acc)
      acc).length = acc.length := by
  intro trs
  induction trs with
  | nil => intro acc; rfl
  | cons tw rest ih => intro acc; rw [List.foldl_cons, ih, foldl_set_length]

theorem act_count_fold_getD (i : Nat) : ∀ (trs : List (List Nat × Nat)) (acc : List Int),
    i < acc.length →
    (trs.foldl
      (fun acc tw => tw.1.foldl (fun a act => a.set act (a.getD act 0 + (tw.2 : Int))) acc)
      acc).getD i 0
      = acc.getD i 0 + (trs.map (fun tw => (tw.2 : Int) * (tw.1.count i : Int))).sum := by
  intro trs
  induction trs with
  | nil => intro acc _; simp
  | cons tw rest ih =>
    intro acc h
    rw [List.foldl_cons, ih _ (by rw [foldl_set_length]; exact h),
      foldl_set_getD _ _ _ _ h]
    simp [mul_comm]
    ring

/-- C7: the per-activity counts passed to candidate pruning are weighted: the
count vector has one entry per activity of the (repaired) projection, and for
every in-range activity index `i` the entry equals the sum over all traces
`(t, w)` of `w` times the number of occurrences of `i` in `t`. -/
theorem act_count_of_weighted (p : EventLogActivityProjection) (i : Nat)
    (h : i < p.activities.length) :
    (act_count_of p).length = p.activities.length ∧
    (act_count_of p).getD i 0
      = (p.traces.map (fun tw => (tw.2 : Int) * (tw.1.count i : Int))).sum := by
  constructor
  · rw [act_count_of, act_count_fold_length, List.length_replicate]
  · rw [act_count_of, act_count_fold_getD _ _ _ (by simpa using h)]
    simp [List.getD_eq_getElem?_getD, List.getElem?_replicate, h]

/-- Witness for `act_count_of_weighted` at a concrete projection. -/
theorem act_count_of_weighted_witness :
    (act_count_of ⟨["a", "b"], [([0, 1, 0], 2), ([1], 3)]⟩).getD 0 0 = 4 := by
  have h := act_count_of_weighted ⟨["a", "b"], [([0, 1, 0], 2), ([1], 3)]⟩ 0 (by decide)
  rw [h.2]
  decide

/-- C10: both `from_json` functions unwrap the deserialization result, so a
malformed or field-missing JSON input panics (`none` in the model) instead of
returning an error value; and for every config value the serialize /
deserialize round trip reproduces all seven numeric fields (likewise for
`AlgoDuration`). -/
theorem from_json_panics_and_roundtrips :
    AlphaPPPConfig.from_json (JsonValue.str "not a config") = none ∧
    AlphaPPPConfig.from_json (JsonValue.obj []) = none ∧
    AlgoDuration.from_json JsonValue.null = none ∧
    (∀ c : AlphaPPPConfig, AlphaPPPConfig.from_json c.to_json = some c) ∧
    (∀ d : AlgoDuration, AlgoDuration.from_json d.to_json = some d) := by
  refine ⟨rfl, rfl, rfl, ?_, ?_⟩
  · intro c
    simp [AlphaPPPConfig.to_json, AlphaPPPConfig.from_json, json_lookup,
      json_num, json_u64, List.find?]
  · intro d
    simp [AlgoDuration.to_json, AlgoDuration.from_json, json_lookup,
      json_num, List.find?]

/-! ### Helper lemmas for transition creation -/

theorem mk_transitions_spec : ∀ (acts : List String) (pn : PetriNet),
    mk_transitions pn acts =
      ({ pn with counter := pn.counter + nonres_count acts,
                 transitions := pn.transitions ++ trans_block pn.counter acts },
       tid_block pn.counter acts) := by
  intro acts
  induction acts with
  | nil =>
    intro pn
    simp [mk_transitions, nonres_count, trans_block, tid_block]
  | cons a rest ih =>
    intro pn
    by_cases hres : a = START_EVENT ∨ a = END_EVENT
    · have hb : (a == START_EVENT || a == END_EVENT) = true := by
        rcases hres with h | h <;> simp [h]
      simp only [mk_transitions, if_pos hres, ih, trans_block, tid_block,
        nonres_count, List.filter_cons, hb]
      simp
    · have hb2 : (!(a == START_EVENT || a == END_EVENT)) = true := by
        simp only [Bool.not_eq_true', Bool.or_eq_false_iff, beq_eq_false_iff_ne]
        exact ⟨fun h => hres (Or.inl h), fun h => hres (Or.inr h)⟩
      simp only [mk_transitions, if_neg hres, PetriNet.add_transition, ih,
        trans_block, tid_block, nonres_count, List.filter_cons, hb2, if_true]
      simp only [Prod.mk.injEq, PetriNet.mk.injEq]
      refine ⟨⟨?_, ?_, trivial, trivial, trivial, trivial⟩, trivial⟩
      · simp only [List.length_cons]
        omega
      · simp

theorem tid_block_length : ∀ (acts : List String) (c : Nat),
    (tid_block c acts).length = acts.length := by
  intro acts
  induction acts with
  | nil => intro c; rfl
  | cons a rest ih =>
    intro c
    by_cases hres : a = START_EVENT ∨ a = END_EVENT
    · simp [tid_block, if_pos hres, ih]
    · simp [tid_block, if_neg hres, ih]

theorem trans_block_length : ∀ (acts : List String) (c : Nat),
    (trans_block c acts).length = nonres_count acts := by
  intro acts
  induction acts with
  | nil => intro c; rfl
  | cons a rest ih =>
    intro c
    by_cases hres : a = START_EVENT ∨ a = END_EVENT
    · have hcond : ¬((!(a == START_EVENT || a == END_EVENT)) = true) := by
        rcases hres with h | h <;> simp [h]
      simp only [trans_block, if_pos hres, nonres_count, List.filter_cons,
        if_neg hcond]
      exact ih c
    · have hcond : (!(a == START_EVENT || a == END_EVENT)) = true := by
        simp only [Bool.not_eq_true', Bool.or_eq_false_iff, beq_eq_false_iff_ne]
        exact ⟨fun h => hres (Or.inl h), fun h => hres (Or.inr h)⟩
      simp only [trans_block, if_neg hres, nonres_count, List.filter_cons,
        if_pos hcond, List.length_cons]
      rw [show (trans_block (c + 1) rest).length = nonres_count rest from ih (c + 1)]
      rfl

theorem tid_block_get_reserved : ∀ (acts : List String) (c i : Nat) (a : String),
    acts.get? i = some a → (a = START_EVENT ∨ a = END_EVENT) →
    (tid_block c acts).get? i = some none := by
  intro acts
  induction acts with
  | nil => intro c i a h _; simp at h
  | cons hd rest ih =>
    intro c i a h hres
    match i with
    | 0 =>
      simp only [List.get?_cons_zero, Option.some.injEq] at h
      subst h
      simp [tid_block, if_pos hres]
    | i + 1 =>
      simp only [List.get?_cons_succ] at h
      by_cases hhd : hd = START_EVENT ∨ hd = END_EVENT
      · simp only [tid_block, if_pos hhd, List.get?_cons_succ]
        exact ih c i a h hres
      · simp only [tid_block, if_neg hhd, List.get?_cons_succ]
        exact ih (c + 1) i a h hres

theorem tid_block_get_nonres : ∀ (acts : List String) (c i : Nat) (a : String),
    acts.get? i = some a → ¬(a = START_EVENT ∨ a = END_EVENT) →
    ∃ tid, (tid_block c acts).get? i = some (some tid) ∧
      (tid, if starts_with_silent a then none else some a)
        ∈ trans_block c acts := by
  intro acts
  induction acts with
  | nil => intro c i a h _; simp at h
  | cons hd rest ih =>
    intro c i a h hres
    match i with
    | 0 =>
      simp only [List.get?_cons_zero, Option.some.injEq] at h
      subst h
      refine ⟨c, ?_, ?_⟩
      · simp [tid_block, if_neg hres]
      · simp [trans_block, if_neg hres]
    | i + 1 =>
      simp only [List.get?_cons_succ] at h
      by_cases hhd : hd = START_EVENT ∨ hd = END_EVENT
      · obtain ⟨tid, h1, h2⟩ := ih c i a h hres
        refine ⟨tid, ?_, ?_⟩
        · simp only [tid_block, if_pos hhd, List.get?_cons_succ]; exact h1
        · simp only [trans_block, if_pos hhd]; exact h2
      · obtain ⟨tid, h1, h2⟩ := ih (c + 1) i a h hres
        refine ⟨tid, ?_, ?_⟩
        · simp only [tid_block, if_neg hhd, List.get?_cons_succ]; exact h1
        · simp only [trans_block, if_neg hhd]
          exact List.mem_cons_of_mem _ h2

theorem tid_block_ge : ∀ (acts : List String) (c i t : Nat),
    (tid_block c acts).get? i = some (some t) → c ≤ t := by
  intro acts
  induction acts with
  | nil => intro c i t h; simp [tid_block] at h
  | cons hd rest ih =>
    intro c i t h
    by_cases hhd : hd = START_EVENT ∨ hd = END_EVENT
    · simp only [tid_block, if_pos hhd] at h
      match i with
      | 0 => simp at h
      | i + 1 => exact ih c i t (by simpa using h)
    · simp only [tid_block, if_neg hhd] at h
      match i with
      | 0 =>
        simp only [List.get?_cons_zero, Option.some.injEq, Option.some.injEq] at h
        omega
      | i + 1 =>
        have := ih (c + 1) i t (by simpa using h)
        omega

theorem tid_block_inj : ∀ (acts : List String) (c i j ti tj : Nat),
    (tid_block c acts).get? i = some (some ti) →
    (tid_block c acts).get? j = some (some tj) → ti = tj → i = j := by
  intro acts
  induction acts with
  | nil => intro c i j ti tj h _ _; simp [tid_block] at h
  | cons hd rest ih =>
    intro c i j ti tj hi hj hij
    by_cases hhd : hd = START_EVENT ∨ hd = END_EVENT
    · simp only [tid_block, if_pos hhd] at hi hj
      match i, j with
      | 0, _ => simp at hi
      | _, 0 => simp at hj
      | i + 1, j + 1 =>
        have := ih c i j ti tj (by simpa using hi) (by simpa using hj) hij
        omega
    · simp only [tid_block, if_neg hhd] at hi hj
      match i, j with
      | 0, 0 => rfl
      | 0, j + 1 =>
        simp only [List.get?_cons_zero, Option.some.injEq, Option.some.injEq] at hi
        have hge := tid_block_ge rest (c + 1) j tj (by simpa using hj)
        omega
      | i + 1, 0 =>
        simp only [List.get?_cons_zero, Option.some.injEq, Option.some.injEq] at hj
        have hge := tid_block_ge rest (c + 1) i ti (by simpa using hi)
        omega
      | i + 1, j + 1 =>
        have := ih (c + 1) i j ti tj (by simpa using hi) (by simpa using hj) hij
        omega

/-- C2: for every activity of the (repaired) projection, transition creation
produces exactly one transition unless the activity is the reserved Start or
End event (whose table entries are `none`); a created transition is silent
(label `none`) iff the activity name begins with the silent prefix, and
otherwise its label is the activity name; distinct positions get distinct
transitions, and the total number of transitions equals the number of
non-reserved activities. -/
theorem transitions_one_per_activity (acts : List String) :
    ((mk_transitions PetriNet.new acts).2.length = acts.length) ∧
    ((mk_transitions PetriNet.new acts).1.transitions.length = nonres_count acts) ∧
    (∀ i a, acts.get? i = some a →
      ((a = START_EVENT ∨ a = END_EVENT) →
        (mk_transitions PetriNet.new acts).2.get? i = some none) ∧
      (¬(a = START_EVENT ∨ a = END_EVENT) → ∃ tid,
        (mk_transitions PetriNet.new acts).2.get? i = some (some tid) ∧
        (tid, if starts_with_silent a then none else some a)
          ∈ (mk_transitions PetriNet.new acts).1.transitions)) ∧
    (∀ i j ti tj,
      (mk_transitions PetriNet.new acts).2.get? i = some (some ti) →
      (mk_transitions PetriNet.new acts).2.get? j = some (some tj) →
      ti = tj → i = j) := by
  rw [mk_transitions_spec]
  refine ⟨tid_block_length acts 0, ?_, ?_, ?_⟩
  · simpa [PetriNet.new] using trans_block_length acts 0
  · intro i a h
    constructor
    · intro hres
      exact tid_block_get_reserved acts 0 i a h hres
    · intro hres
      obtain ⟨tid, h1, h2⟩ := tid_block_get_nonres acts 0 i a h hres
      exact ⟨tid, h1, by simpa [PetriNet.new] using h2⟩
  · intro i j ti tj hi hj hij
    exact tid_block_inj acts 0 i j ti tj hi hj hij

/-- Witness for `transitions_one_per_activity` at a concrete activity list:
the silent-prefixed activity gets an unlabeled transition, the Start activity
gets none. -/
theorem transitions_one_per_activity_witness :
    (∃ tid, (mk_transitions PetriNet.new ["__SILENT__x", "__START__", "b"]).2.get? 0
        = some (some tid) ∧
      (tid, none) ∈ (mk_transitions PetriNet.new
        ["__SILENT__x", "__START__", "b"]).1.transitions) ∧
    (mk_transitions PetriNet.new ["__SILENT__x", "__START__", "b"]).2.get? 1
        = some none := by
  have h := (transitions_one_per_activity ["__SILENT__x", "__START__", "b"]).2.2.1
  constructor
  · have h0 := (h 0 "__SILENT__x" rfl).2 (by decide)
    simpa using h0
  · exact (h 1 "__START__" rfl).1 (Or.inl rfl)

/-! ### Characterization of the candidate-to-place assembly -/

theorem wire_ins_spec (start_act : Nat) (ts : List (Option Nat)) (pid : Nat) :
    ∀ (l : List Nat) (pn : PetriNet) (m : Nat → Nat),
    (∀ a ∈ l, a ≠ start_act → (tr_lookup ts a).isSome = true) →
    wire_ins start_act ts pid pn m l =
      some ({ pn with arcs := pn.arcs ++ (l.filter (fun a => a != start_act)).map (fun a => ArcType.transition_to_place ((tr_lookup ts a).getD 0) pid) },
        fun q => if q = pid then m q + l.count start_act else m q) := by
  intro l
  induction l with
  | nil =>
    intro pn m _
    simp only [wire_ins, List.filter_nil, List.map_nil, List.append_nil,
      List.count_nil, Nat.add_zero, Option.some.injEq, Prod.mk.injEq]
    refine ⟨trivial, ?_⟩
    funext q
    exact (ite_self (m q)).symm
  | cons a rest ih =>
    intro pn m hvalid
    by_cases ha : a = start_act
    · simp only [wire_ins, if_pos ha]
      rw [ih _ _ (fun x hx hne => hvalid x (List.mem_cons_of_mem _ hx) hne)]
      simp only [Option.some.injEq, Prod.mk.injEq]
      constructor
      · subst ha
        simp [List.filter_cons]
      · funext q
        subst ha
        by_cases hq : q = pid
        · simp only [bump, if_pos hq, List.count_cons_self]
          omega
        · simp only [bump, if_neg hq]
    · have hsome := hvalid a (List.mem_cons_self a rest) ha
      obtain ⟨t, ht⟩ := Option.isSome_iff_exists.mp hsome
      simp only [wire_ins, if_neg ha, ht]
      rw [ih _ _ (fun x hx hne => hvalid x (List.mem_cons_of_mem _ hx) hne)]
      simp only [Option.some.injEq, Prod.mk.injEq, PetriNet.add_arc]
      constructor
      · have hbne : (a != start_act) = true := bne_iff_ne.mpr ha
        simp [List.filter_cons, hbne, ht, List.append_assoc]
      · funext q
        rw [List.count_cons_of_ne (Ne.symm ha)]

theorem wire_outs_spec (end_act : Nat) (ts : List (Option Nat)) (pid : Nat) :
    ∀ (l : List Nat) (pn : PetriNet) (m : Nat → Nat),
    (∀ b ∈ l, b ≠ end_act → (tr_lookup ts b).isSome = true) →
    wire_outs end_act ts pid pn m l =
      some ({ pn with arcs := pn.arcs ++ (l.filter (fun b => b != end_act)).map (fun b => ArcType.place_to_transition pid ((tr_lookup ts b).getD 0)) },
        fun q => if q = pid then m q + l.count end_act else m q) := by
  intro l
  induction l with
  | nil =>
    intro pn m _
    simp only [wire_outs, List.filter_nil, List.map_nil, List.append_nil,
      List.count_nil, Nat.add_zero, Option.some.injEq, Prod.mk.injEq]
    refine ⟨trivial, ?_⟩
    funext q
    exact (ite_self (m q)).symm
  | cons b rest ih =>
    intro pn m hvalid
    by_cases hb : b = end_act
    · simp only [wire_outs, if_pos hb]
      rw [ih _ _ (fun x hx hne => hvalid x (List.mem_cons_of_mem _ hx) hne)]
      simp only [Option.some.injEq, Prod.mk.injEq]
      constructor
      · subst hb
        simp [List.filter_cons]
      · funext q
        subst hb
        by_cases hq : q = pid
        · simp only [bump, if_pos hq, List.count_cons_self]
          omega
        · simp only [bump, if_neg hq]
    · have hsome := hvalid b (List.mem_cons_self b rest) hb
      obtain ⟨t, ht⟩ := Option.isSome_iff_exists.mp hsome
      simp only [wire_outs, if_neg hb, ht]
      rw [ih _ _ (fun x hx hne => hvalid x (List.mem_cons_of_mem _ hx) hne)]
      simp only [Option.some.injEq, Prod.mk.injEq, PetriNet.add_arc]
      constructor
      · have hbne : (b != end_act) = true := bne_iff_ne.mpr hb
        simp [List.filter_cons, hbne, ht, List.append_assoc]
      · funext q
        rw [List.count_cons_of_ne (Ne.symm hb)]

theorem add_candidate_spec (start_act end_act : Nat) (ts : List (Option Nat))
    (st : AssemblyState) (c : List Nat × List Nat)
    (h1 : ∀ a ∈ c.1, a ≠ start_act → (tr_lookup ts a).isSome = true)
    (h2 : ∀ b ∈ c.2, b ≠ end_act → (tr_lookup ts b).isSome = true) :
    add_candidate start_act end_act ts st c =
      some ⟨{ st.pn with counter := st.pn.counter + 1, places := st.pn.places ++ [st.pn.counter], arcs := st.pn.arcs ++ cand_arcs ts start_act end_act st.pn.counter c },
        fun q => if q = st.pn.counter then st.initial_marking q + c.1.count start_act
                 else st.initial_marking q,
        fun q => if q = st.pn.counter then st.final_marking q + c.2.count end_act
                 else st.final_marking q⟩ := by
  have hins := wire_ins_spec start_act ts (st.pn.add_place).2 c.1
    (st.pn.add_place).1 st.initial_marking h1
  have houts := wire_outs_spec end_act ts (st.pn.add_place).2 c.2
    ({ (st.pn.add_place).1 with arcs := (st.pn.add_place).1.arcs ++ (c.1.filter (fun a => a != start_act)).map (fun a => ArcType.transition_to_place ((tr_lookup ts a).getD 0) (st.pn.add_place).2) })
    st.final_marking h2
  simp only [add_candidate, hins, houts]
  simp only [PetriNet.add_place, cand_arcs, List.append_assoc]

theorem block_places_succ (c0 n : Nat) :
    block_places c0 (n + 1) = c0 :: block_places (c0 + 1) n := by
  simp only [block_places, List.range_succ_eq_map, List.map_cons, List.map_map,
    Nat.add_zero]
  congr 1
  refine List.map_congr_left ?_
  intro i _
  simp [Function.comp]
  omega

theorem add_candidates_spec (start_act end_act : Nat) (ts : List (Option Nat)) :
    ∀ (sel : List (List Nat × List Nat)) (st : AssemblyState),
    valid_sel ts start_act end_act sel →
    add_candidates start_act end_act ts st sel =
      some ⟨{ st.pn with counter := st.pn.counter + sel.length, places := st.pn.places ++ block_places st.pn.counter sel.length, arcs := st.pn.arcs ++ sel_arcs ts start_act end_act st.pn.counter sel },
        fun q => st.initial_marking q + init_contrib start_act st.pn.counter sel q,
        fun q => st.final_marking q + final_contrib end_act st.pn.counter sel q⟩ := by
  intro sel
  induction sel with
  | nil =>
    intro st _
    simp only [add_candidates, List.length_nil, Nat.add_zero, block_places,
      List.range_zero, List.map_nil, List.append_nil, sel_arcs, init_contrib,
      final_contrib]
  | cons c rest ih =>
    intro st hv
    have hc := hv c (List.mem_cons_self c rest)
    have hrest : valid_sel ts start_act end_act rest :=
      fun x hx => hv x (List.mem_cons_of_mem _ hx)
    rw [add_candidates, add_candidate_spec start_act end_act ts st c hc.1 hc.2]
    have hih := ih (⟨{ st.pn with counter := st.pn.counter + 1, places := st.pn.places ++ [st.pn.counter], arcs := st.pn.arcs ++ cand_arcs ts start_act end_act st.pn.counter c }, fun q => if q = st.pn.counter then st.initial_marking q + c.1.count start_act else st.initial_marking q, fun q => if q = st.pn.counter then st.final_marking q + c.2.count end_act else st.final_marking q⟩) hrest
    simp only [hih, Option.some.injEq, AssemblyState.mk.injEq, PetriNet.mk.injEq]
    refine ⟨⟨?_, trivial, ?_, ?_, trivial, trivial⟩, ?_, ?_⟩
    · simp only [List.length_cons]
      omega
    · simp only [List.length_cons, block_places_succ, List.append_assoc,
        List.singleton_append]
    · simp only [sel_arcs, List.append_assoc]
    · funext q
      simp only [init_contrib]
      by_cases hq : q = st.pn.counter
      · simp only [if_pos hq]
        omega
      · simp only [if_neg hq]
        omega
    · funext q
      simp only [final_contrib]
      by_cases hq : q = st.pn.counter
      · simp only [if_pos hq]
        omega
      · simp only [if_neg hq]
        omega

theorem build_net_spec (acts : List String) (sel : List (List Nat × List Nat))
    (sa ea : Nat) (hv : valid_sel (tid_block 0 acts) sa ea sel) :
    build_net acts sel sa ea =
      some { pre_sweep_net acts sel sa ea with
        transitions := (trans_block 0 acts).filter (fun tl => !(is_orphan_silent (pre_sweep_net acts sel sa ea) tl)),
        initial_marking := some (init_contrib sa (nonres_count acts) sel),
        final_markings := some [final_contrib ea (nonres_count acts) sel] } := by
  have hmk := mk_transitions_spec acts PetriNet.new
  have hadd := add_candidates_spec sa ea (tid_block 0 acts) sel
    (⟨{ counter := nonres_count acts, transitions := trans_block 0 acts, places := [], arcs := [], initial_marking := none, final_markings := none }, fun _ => 0, fun _ => 0⟩)
    hv
  simp only [build_net, init_state, hmk, PetriNet.new] at *
  simp only [List.nil_append, Nat.zero_add] at hadd
  simp only [hadd, sweep, pre_sweep_net, List.nil_append, Nat.zero_add]

/-- C1: for every candidate `(A, B)` handed to the assembly loop (with the
validity precondition the selected candidates satisfy), exactly one fresh
place `p` is created; every `a ∈ A` equal to the Start index adds one token of
the initial marking at `p` and every other `a` adds an arc transition(a)→p;
every `b ∈ B` equal to the End index adds one token of the final marking at
`p` and every other `b` adds an arc p→transition(b); nothing else changes. -/
theorem candidate_assembly_per_candidate (start_act end_act : Nat)
    (ts : List (Option Nat)) (st : AssemblyState) (a b : List Nat)
    (h1 : ∀ x ∈ a, x ≠ start_act → (tr_lookup ts x).isSome = true)
    (h2 : ∀ y ∈ b, y ≠ end_act → (tr_lookup ts y).isSome = true)
    (hfresh : ∀ p ∈ st.pn.places, p < st.pn.counter) :
    ∃ st' p, add_candidate start_act end_act ts st (a, b) = some st' ∧
      p ∉ st.pn.places ∧
      st'.pn.places = st.pn.places ++ [p] ∧
      st'.pn.transitions = st.pn.transitions ∧
      st'.initial_marking p = st.initial_marking p + a.count start_act ∧
      (∀ q, q ≠ p → st'.initial_marking q = st.initial_marking q) ∧
      st'.final_marking p = st.final_marking p + b.count end_act ∧
      (∀ q, q ≠ p → st'.final_marking q = st.final_marking q) ∧
      st'.pn.arcs = st.pn.arcs
        ++ (a.filter (fun x => x != start_act)).map (fun x => ArcType.transition_to_place ((tr_lookup ts x).getD 0) p)
        ++ (b.filter (fun y => y != end_act)).map (fun y => ArcType.place_to_transition p ((tr_lookup ts y).getD 0)) := by
  refine ⟨_, st.pn.counter,
    add_candidate_spec start_act end_act ts st (a, b) h1 h2,
    fun hmem => absurd (hfresh _ hmem) (lt_irrefl _), rfl, rfl, ?_, ?_, ?_, ?_, ?_⟩
  · simp
  · intro q hq
    simp [if_neg hq]
  · simp
  · intro q hq
    simp [if_neg hq]
  · simp [cand_arcs, List.append_assoc]

/-- Witness for `candidate_assembly_per_candidate`: a concrete candidate whose
`A` side holds one ordinary activity and the Start index, and whose `B` side
holds one ordinary activity and the End index. -/
theorem candidate_assembly_per_candidate_witness :
    ∃ st' p, add_candidate 5 6 [some 10, some 11]
        ⟨PetriNet.new, fun _ => 0, fun _ => 0⟩ ([0, 5], [1, 6]) = some st' ∧
      p ∉ (PetriNet.new).places ∧
      st'.pn.places = (PetriNet.new).places ++ [p] ∧
      st'.pn.transitions = (PetriNet.new).transitions ∧
      st'.initial_marking p = 0 + [0, 5].count 5 ∧
      (∀ q, q ≠ p → st'.initial_marking q = 0) ∧
      st'.final_marking p = 0 + [1, 6].count 6 ∧
      (∀ q, q ≠ p → st'.final_marking q = 0) ∧
      st'.pn.arcs = (PetriNet.new).arcs
        ++ ([0, 5].filter (fun x => x != 5)).map (fun x => ArcType.transition_to_place ((tr_lookup [some 10, some 11] x).getD 0) p)
        ++ ([1, 6].filter (fun y => y != 6)).map (fun y => ArcType.place_to_transition p ((tr_lookup [some 10, some 11] y).getD 0)) :=
  candidate_assembly_per_candidate 5 6 [some 10, some 11]
    ⟨PetriNet.new, fun _ => 0, fun _ => 0⟩ [0, 5] [1, 6]
    (by decide) (by decide) (by simp [PetriNet.new])

/-- C9: when every candidate selected by pruning only mentions, besides the
Start index on the `A` side and the End index on the `B` side, in-range
indices whose transition-table entry is `Some`, the `unwrap` lookups of the
assembly never panic: the net construction returns a net. -/
theorem assembly_lookups_never_panic (acts : List String)
    (sel : List (List Nat × List Nat)) (sa ea : Nat)
    (hv : valid_sel (mk_transitions PetriNet.new acts).2 sa ea sel) :
    (build_net acts sel sa ea).isSome = true := by
  have hts : (mk_transitions PetriNet.new acts).2 = tid_block 0 acts := by
    rw [mk_transitions_spec]
    rfl
  rw [hts] at hv
  rw [build_net_spec acts sel sa ea hv]
  rfl

/-- Witness for `assembly_lookups_never_panic` at a concrete input. -/
theorem assembly_lookups_never_panic_witness :
    (build_net ["a", "b"] [([0], [1]), ([5], [0])] 5 6).isSome = true :=
  assembly_lookups_never_panic ["a", "b"] [([0], [1]), ([5], [0])] 5 6
    (by simp only [valid_sel, valid_cnd]; decide)

/-- C3: on every net the assembly returns, the final sweep has deleted exactly
the transitions whose label is absent and whose preset and postset are both
empty, it runs on the state reached after all places and arcs of all selected
candidates were added (the returned net keeps that state's places and arcs
unchanged), and consequently no silent transition of the output has both an
empty preset and an empty postset. -/
theorem sweep_exact_and_no_orphan_silent (acts : List String)
    (sel : List (List Nat × List Nat)) (sa ea : Nat)
    (hv : valid_sel (tid_block 0 acts) sa ea sel) :
    ∃ pn, build_net acts sel sa ea = some pn ∧
      pn.arcs = (pre_sweep_net acts sel sa ea).arcs ∧
      pn.places = (pre_sweep_net acts sel sa ea).places ∧
      pn.transitions = (pre_sweep_net acts sel sa ea).transitions.filter
        (fun tl => !(is_orphan_silent (pre_sweep_net acts sel sa ea) tl)) ∧
      (∀ tl ∈ pn.transitions, tl.2 = none →
        ¬(pn.preset_of_transition tl.1 = [] ∧ pn.postset_of_transition tl.1 = [])) := by
  refine ⟨_, build_net_spec acts sel sa ea hv, rfl, rfl, rfl, ?_⟩
  intro tl hmem hnone
  rintro ⟨hpre, hpost⟩
  have hkeep := (List.mem_filter.mp hmem).2
  rw [Bool.not_eq_true'] at hkeep
  have hpre' : (pre_sweep_net acts sel sa ea).preset_of_transition tl.1 = [] := hpre
  have hpost' : (pre_sweep_net acts sel sa ea).postset_of_transition tl.1 = [] := hpost
  simp [is_orphan_silent, hnone, hpre', hpost'] at hkeep

/-- Witness for `sweep_exact_and_no_orphan_silent`: with one silent and one
labeled activity and a single candidate touching only the labeled one, the
orphan silent transition is swept and only the labeled transition remains. -/
theorem sweep_exact_and_no_orphan_silent_witness :
    ((build_net ["__SILENT__x", "a"] [([1], [1])] 5 6).getD PetriNet.new).transitions
      = [(1, some "a")] := by
  obtain ⟨pn, heq, _, _, hfilter, _⟩ :=
    sweep_exact_and_no_orphan_silent ["__SILENT__x", "a"] [([1], [1])] 5 6
      (by simp only [valid_sel, valid_cnd]; decide)
  rw [heq]
  show pn.transitions = [(1, some "a")]
  rw [hfilter]
  decide

/-! ### Helper lemmas for the marking counts -/

theorem init_contrib_lt (sa : Nat) : ∀ (sel : List (List Nat × List Nat)) (c0 q : Nat),
    q < c0 → init_contrib sa c0 sel q = 0 := by
  intro sel
  induction sel with
  | nil => intro c0 q _; rfl
  | cons c rest ih =>
    intro c0 q hq
    have hne : q ≠ c0 := Nat.ne_of_lt hq
    simp only [init_contrib, if_neg hne, ih (c0 + 1) q (by omega), Nat.add_zero]

theorem final_contrib_lt (ea : Nat) : ∀ (sel : List (List Nat × List Nat)) (c0 q : Nat),
    q < c0 → final_contrib ea c0 sel q = 0 := by
  intro sel
  induction sel with
  | nil => intro c0 q _; rfl
  | cons c rest ih =>
    intro c0 q hq
    have hne : q ≠ c0 := Nat.ne_of_lt hq
    simp only [final_contrib, if_neg hne, ih (c0 + 1) q (by omega), Nat.add_zero]

theorem init_contrib_at (sa : Nat) : ∀ (sel : List (List Nat × List Nat)) (c0 i : Nat),
    i < sel.length →
    init_contrib sa c0 sel (c0 + i) = ((sel.getD i ([], [])).1).count sa := by
  intro sel
  induction sel with
  | nil => intro c0 i h; simp at h
  | cons c rest ih =>
    intro c0 i h
    match i with
    | 0 =>
      simp only [init_contrib, Nat.add_zero, if_pos rfl, List.getD_cons_zero]
      rw [init_contrib_lt sa rest (c0 + 1) c0 (by omega)]
      simp
    | i + 1 =>
      have hne : c0 + (i + 1) ≠ c0 := by omega
      have harith : c0 + (i + 1) = (c0 + 1) + i := by omega
      simp only [init_contrib, if_neg hne, Nat.zero_add, List.getD_cons_succ]
      rw [harith, ih (c0 + 1) i (by simpa using h)]

theorem final_contrib_at (ea : Nat) : ∀ (sel : List (List Nat × List Nat)) (c0 i : Nat),
    i < sel.length →
    final_contrib ea c0 sel (c0 + i) = ((sel.getD i ([], [])).2).count ea := by
  intro sel
  induction sel with
  | nil => intro c0 i h; simp at h
  | cons c rest ih =>
    intro c0 i h
    match i with
    | 0 =>
      simp only [final_contrib, Nat.add_zero, if_pos rfl, List.getD_cons_zero]
      rw [final_contrib_lt ea rest (c0 + 1) c0 (by omega)]
      simp
    | i + 1 =>
      have hne : c0 + (i + 1) ≠ c0 := by omega
      have harith : c0 + (i + 1) = (c0 + 1) + i := by omega
      simp only [final_contrib, if_neg hne, Nat.zero_add, List.getD_cons_succ]
      rw [harith, ih (c0 + 1) i (by simpa using h)]

theorem countP_range_getD {α : Type} (p : α → Bool) (d : α) :
    ∀ (l : List α),
    ((List.range l.length).countP (fun i => p (l.getD i d))) = l.countP p := by
  intro l
  induction l with
  | nil => rfl
  | cons x xs ih =>
    rw [List.length_cons, List.range_succ_eq_map, List.countP_cons, List.countP_map]
    have hcomp : ((fun i => p ((x :: xs).getD i d)) ∘ Nat.succ)
        = fun i => p (xs.getD i d) := by
      funext i
      simp [Function.comp]
    rw [hcomp, ih, List.countP_cons]
    simp [List.getD_cons_zero]

theorem places_count_init (sa : Nat) (sel : List (List Nat × List Nat)) (c0 : Nat) :
    (block_places c0 sel.length).countP (fun p => decide (init_contrib sa c0 sel p ≠ 0))
      = sel.countP (fun c => decide (sa ∈ c.1)) := by
  rw [block_places, List.countP_map]
  have hcong : ∀ i ∈ List.range sel.length,
      (((fun p => decide (init_contrib sa c0 sel p ≠ 0)) ∘ (fun i => c0 + i)) i = true)
        ↔ (((fun i => decide (sa ∈ (sel.getD i ([], [])).1)) i) = true) := by
    intro i hi
    have hlt := List.mem_range.mp hi
    simp only [Function.comp, decide_eq_true_eq]
    rw [init_contrib_at sa sel c0 i hlt]
    rw [Ne, List.count_eq_zero]
    simp
  rw [List.countP_congr hcong]
  exact countP_range_getD (fun c => decide (sa ∈ c.1)) ([], []) sel

theorem places_count_final (ea : Nat) (sel : List (List Nat × List Nat)) (c0 : Nat) :
    (block_places c0 sel.length).countP (fun p => decide (final_contrib ea c0 sel p ≠ 0))
      = sel.countP (fun c => decide (ea ∈ c.2)) := by
  rw [block_places, List.countP_map]
  have hcong : ∀ i ∈ List.range sel.length,
      (((fun p => decide (final_contrib ea c0 sel p ≠ 0)) ∘ (fun i => c0 + i)) i = true)
        ↔ (((fun i => decide (ea ∈ (sel.getD i ([], [])).2)) i) = true) := by
    intro i hi
    have hlt := List.mem_range.mp hi
    simp only [Function.comp, decide_eq_true_eq]
    rw [final_contrib_at ea sel c0 i hlt]
    rw [Ne, List.count_eq_zero]
    simp
  rw [List.countP_congr hcong]
  exact countP_range_getD (fun c => decide (ea ∈ c.2)) ([], []) sel

/-- C4: in every net the assembly returns, the number of places with a
nonzero initial-marking entry equals the number of selected candidates whose
`A` side contains the Start index, and the number of places with a nonzero
final-marking entry equals the number of selected candidates whose `B` side
contains the End index. -/
theorem marking_counts (acts : List String) (sel : List (List Nat × List Nat))
    (sa ea : Nat) (hv : valid_sel (tid_block 0 acts) sa ea sel) :
    ∃ pn m fm, build_net acts sel sa ea = some pn ∧
      pn.initial_marking = some m ∧ pn.final_markings = some [fm] ∧
      pn.places.countP (fun p => decide (m p ≠ 0))
        = sel.countP (fun c => decide (sa ∈ c.1)) ∧
      pn.places.countP (fun p => decide (fm p ≠ 0))
        = sel.countP (fun c => decide (ea ∈ c.2)) := by
  refine ⟨_, _, _, build_net_spec acts sel sa ea hv, rfl, rfl, ?_, ?_⟩
  · exact places_count_init sa sel (nonres_count acts)
  · exact places_count_final ea sel (nonres_count acts)

/-- Witness for `marking_counts`: two candidates, one with the Start index in
`A` and one with the End index in `B`. -/
theorem marking_counts_witness :
    ∃ pn m fm, build_net ["a", "b"] [([5], [0]), ([1], [6])] 5 6 = some pn ∧
      pn.initial_marking = some m ∧ pn.final_markings = some [fm] ∧
      pn.places.countP (fun p => decide (m p ≠ 0))
        = [([5], [0]), ([1], [6])].countP (fun c => decide (5 ∈ c.1)) ∧
      pn.places.countP (fun p => decide (fm p ≠ 0))
        = [([5], [0]), ([1], [6])].countP (fun c => decide (6 ∈ c.2)) :=
  marking_counts ["a", "b"] [([5], [0]), ([1], [6])] 5 6
    (by simp only [valid_sel, valid_cnd]; decide)

/-! ### Discovery on an empty log -/

theorem mem_ensure_act (l : List String) (s : String) :
    s ∈ (if l.contains s then l else l ++ [s]) := by
  split
  · exact List.mem_of_elem_eq_true (by assumption)
  · exact List.mem_append_right _ (List.mem_singleton_self _)

theorem act_index_start_isSome (p : EventLogActivityProjection) :
    ((add_start_end_acts_proj p).act_index START_EVENT).isSome = true := by
  rw [EventLogActivityProjection.act_index, List.findIdx?_isSome, List.any_eq_true]
  refine ⟨START_EVENT, ?_, by simp⟩
  simp only [add_start_end_acts_proj]
  by_cases hS : p.activities.contains START_EVENT = true
  · simp only [if_pos hS]
    have h1 : START_EVENT ∈ p.activities := List.mem_of_elem_eq_true hS
    split
    · exact h1
    · exact List.mem_append_left _ h1
  · simp only [if_neg hS]
    have h1 : START_EVENT ∈ p.activities ++ [START_EVENT] :=
      List.mem_append_right _ (List.mem_singleton_self _)
    split
    · exact h1
    · exact List.mem_append_left _ h1

theorem act_index_end_isSome (p : EventLogActivityProjection) :
    ((add_start_end_acts_proj p).act_index END_EVENT).isSome = true := by
  rw [EventLogActivityProjection.act_index, List.findIdx?_isSome, List.any_eq_true]
  refine ⟨END_EVENT, ?_, by simp⟩
  simp only [add_start_end_acts_proj]
  exact mem_ensure_act _ END_EVENT

/-- C5 counterexample: on the projection with zero traces (and hence zero DFG
edges after augmentation) the discovery call does not fail: it returns a
Petri net (the trivial empty net).  The source function's return type
`(PetriNet, AlgoDuration)` has no error channel at all, and no panic occurs
on this path. -/
theorem discovery_no_error_on_empty_log :
    alphappp_discover_petri_net empty_log_parts ⟨[], []⟩ ⟨1, 1, 1, 1, 1, 1, 1⟩
      = some { counter := 0, transitions := [], places := [], arcs := [],
               initial_marking := some (fun _ => 0),
               final_markings := some [fun _ => 0] } := by
  rfl

/-- C5 amended: the discovery call has no error path.  On every projection
with zero traces (so the augmented DFG has zero edges) and every
configuration it proceeds — in the source the NaN mean yields threshold 0
after the `u64` cast — and returns a trivial net with no places, no arcs and
all-zero markings rather than an EmptyLog error. -/
theorem discovery_on_empty_log_returns_trivial_net
    (p : EventLogActivityProjection) (_hp : p.traces = [])
    (config : AlphaPPPConfig) :
    ∃ pn, alphappp_discover_petri_net empty_log_parts p config = some pn ∧
      pn.places = [] ∧ pn.arcs = [] ∧
      (∃ m, pn.initial_marking = some m ∧ ∀ q, m q = 0) ∧
      (∃ fm, pn.final_markings = some [fm] ∧ ∀ q, fm q = 0) := by
  obtain ⟨si, hsi⟩ := Option.isSome_iff_exists.mp (act_index_start_isSome p)
  obtain ⟨ei, hei⟩ := Option.isSome_iff_exists.mp (act_index_end_isSome p)
  have hbuild := build_net_spec (add_start_end_acts_proj p).activities [] si ei
    (fun c hc => absurd hc (List.not_mem_nil c))
  simp only [alphappp_discover_petri_net, hsi, hei, empty_log_parts]
  refine ⟨_, hbuild, ?_, rfl, ⟨_, rfl, fun q => rfl⟩, ⟨_, rfl, fun q => rfl⟩⟩
  simp [pre_sweep_net, block_places]

/-- Witness for `discovery_on_empty_log_returns_trivial_net` at a concrete
zero-trace projection that still has an activity. -/
theorem discovery_on_empty_log_returns_trivial_net_witness :
    ∃ pn, alphappp_discover_petri_net empty_log_parts ⟨["a"], []⟩
        ⟨1, 0, 1, 0, 1, 2, 1⟩ = some pn ∧
      pn.places = [] ∧ pn.arcs = [] ∧
      (∃ m, pn.initial_marking = some m ∧ ∀ q, m q = 0) ∧
      (∃ fm, pn.final_markings = some [fm] ∧ ∀ q, fm q = 0) :=
  discovery_on_empty_log_returns_trivial_net ⟨["a"], []⟩ rfl ⟨1, 0, 1, 0, 1, 2, 1⟩

/-! ### Place renaming and permutation invariance of the assembly -/

theorem arc_rename_comp (f g : Nat → Nat) (a : ArcType) :
    arc_rename g (arc_rename f a) = arc_rename (fun x => g (f x)) a := by
  cases a <;> rfl

theorem arc_rename_fix (rho : Nat → Nat) (a : ArcType)
    (h : rho (arc_place a) = arc_place a) : arc_rename rho a = a := by
  cases a <;> simp [arc_rename, arc_place] at * <;> exact h

theorem cand_arcs_place_eq (ts : List (Option Nat)) (sa ea pid : Nat)
    (c : List Nat × List Nat) :
    ∀ arc ∈ cand_arcs ts sa ea pid c, arc_place arc = pid := by
  intro arc harc
  rcases List.mem_append.mp harc with h | h <;>
    obtain ⟨x, _, rfl⟩ := List.mem_map.mp h <;> rfl

theorem sel_arcs_place_ge (ts : List (Option Nat)) (sa ea : Nat) :
    ∀ (s : List (List Nat × List Nat)) (c0 : Nat),
    ∀ arc ∈ sel_arcs ts sa ea c0 s, c0 ≤ arc_place arc := by
  intro s
  induction s with
  | nil => intro c0 arc h; simp [sel_arcs] at h
  | cons c rest ih =>
    intro c0 arc h
    rcases List.mem_append.mp h with h1 | h1
    · rw [cand_arcs_place_eq ts sa ea c0 c arc h1]
    · have := ih (c0 + 1) arc h1
      omega

theorem cand_arcs_map_rename (ts : List (Option Nat)) (sa ea pid : Nat)
    (c : List Nat × List Nat) (rho : Nat → Nat) :
    (cand_arcs ts sa ea pid c).map (arc_rename rho)
      = cand_arcs ts sa ea (rho pid) c := by
  simp only [cand_arcs, List.map_append, List.map_map]
  rfl

theorem block_places_ge (c0 n : Nat) : ∀ p ∈ block_places c0 n, c0 ≤ p := by
  intro p hp
  obtain ⟨i, _, rfl⟩ := List.mem_map.mp hp
  omega

theorem pre_arc_rename (rho : Nat → Nat) (t : Nat) (a : ArcType) :
    pre_arc t (arc_rename rho a) = (pre_arc t a).map rho := by
  cases a with
  | transition_to_place t2 p => rfl
  | place_to_transition p t2 =>
    simp only [arc_rename, pre_arc]
    split <;> rfl

theorem post_arc_rename (rho : Nat → Nat) (t : Nat) (a : ArcType) :
    post_arc t (arc_rename rho a) = (post_arc t a).map rho := by
  cases a with
  | place_to_transition p t2 => rfl
  | transition_to_place t2 p =>
    simp only [arc_rename, post_arc]
    split <;> rfl

theorem preset_perm_rename (pn1 pn2 : PetriNet) (rho : Nat → Nat) (t : Nat)
    (h : pn2.arcs.Perm (pn1.arcs.map (arc_rename rho))) :
    (pn2.preset_of_transition t).Perm ((pn1.preset_of_transition t).map rho) := by
  have h2 := h.filterMap (pre_arc t)
  rw [List.filterMap_map] at h2
  have hfun : (pre_arc t ∘ arc_rename rho) = fun a => (pre_arc t a).map rho :=
    funext (fun a => pre_arc_rename rho t a)
  rw [hfun, ← List.map_filterMap] at h2
  exact h2

theorem postset_perm_rename (pn1 pn2 : PetriNet) (rho : Nat → Nat) (t : Nat)
    (h : pn2.arcs.Perm (pn1.arcs.map (arc_rename rho))) :
    (pn2.postset_of_transition t).Perm ((pn1.postset_of_transition t).map rho) := by
  have h2 := h.filterMap (post_arc t)
  rw [List.filterMap_map] at h2
  have hfun : (post_arc t ∘ arc_rename rho) = fun a => (post_arc t a).map rho :=
    funext (fun a => post_arc_rename rho t a)
  rw [hfun, ← List.map_filterMap] at h2
  exact h2

theorem isEmpty_of_length_eq {l1 l2 : List Nat} (h : l1.length = l2.length) :
    l1.isEmpty = l2.isEmpty := by
  cases l1 <;> cases l2 <;> simp_all

theorem is_orphan_silent_rename (pn1 pn2 : PetriNet) (rho : Nat → Nat)
    (tl : Nat × Option String)
    (harcs : pn2.arcs.Perm (pn1.arcs.map (arc_rename rho))) :
    is_orphan_silent pn2 tl = is_orphan_silent pn1 tl := by
  have hpre := (preset_perm_rename pn1 pn2 rho tl.1 harcs).length_eq
  have hpost := (postset_perm_rename pn1 pn2 rho tl.1 harcs).length_eq
  rw [List.length_map] at hpre hpost
  rw [is_orphan_silent, is_orphan_silent,
    isEmpty_of_length_eq hpre, isEmpty_of_length_eq hpost]

theorem sel_perm_block_equiv (ts : List (Option Nat)) (sa ea : Nat)
    {s1 s2 : List (List Nat × List Nat)} (hperm : s1.Perm s2) :
    ∀ c0 : Nat, ∃ rho : Equiv.Perm Nat,
      (∀ q, q < c0 → rho q = q) ∧
      (∀ q, c0 + s1.length ≤ q → rho q = q) ∧
      (block_places c0 s1.length).Perm ((block_places c0 s1.length).map rho) ∧
      (sel_arcs ts sa ea c0 s2).Perm
        ((sel_arcs ts sa ea c0 s1).map (arc_rename rho)) ∧
      (∀ q, init_contrib sa c0 s2 (rho q) = init_contrib sa c0 s1 q) ∧
      (∀ q, final_contrib ea c0 s2 (rho q) = final_contrib ea c0 s1 q) := by
  induction hperm with
  | nil =>
    intro c0
    refine ⟨Equiv.refl Nat, fun q _ => rfl, fun q _ => rfl, ?_, ?_,
      fun q => rfl, fun q => rfl⟩
    · simp
    · simp [sel_arcs]
  | cons x h ih =>
    intro c0
    obtain ⟨rho, hlo, hhi, hblock, harcs, hinit, hfin⟩ := ih (c0 + 1)
    have hfix : rho c0 = c0 := hlo c0 (by omega)
    refine ⟨rho, ?_, ?_, ?_, ?_, ?_, ?_⟩
    · intro q hq
      exact hlo q (by omega)
    · intro q hq
      apply hhi q
      simp only [List.length_cons] at hq
      omega
    · rw [List.length_cons, block_places_succ, List.map_cons, hfix]
      exact hblock.cons c0
    · simp only [sel_arcs, List.map_append, cand_arcs_map_rename, hfix]
      exact List.Perm.append_left _ harcs
    · intro q
      simp only [init_contrib]
      by_cases hq : q = c0
      · subst hq
        rw [hinit q, if_pos hfix, if_pos rfl]
      · have hne : rho q ≠ c0 := by
          intro hcontra
          exact hq (rho.injective (hcontra.trans hfix.symm))
        rw [if_neg hne, if_neg hq, hinit q]
    · intro q
      simp only [final_contrib]
      by_cases hq : q = c0
      · subst hq
        rw [hfin q, if_pos hfix, if_pos rfl]
      · have hne : rho q ≠ c0 := by
          intro hcontra
          exact hq (rho.injective (hcontra.trans hfix.symm))
        rw [if_neg hne, if_neg hq, hfin q]
  | swap x y l =>
    intro c0
    refine ⟨Equiv.swap c0 (c0 + 1), ?_, ?_, ?_, ?_, ?_, ?_⟩
    · intro q hq
      exact Equiv.swap_apply_of_ne_of_ne (by omega) (by omega)
    · intro q hq
      simp only [List.length_cons] at hq
      exact Equiv.swap_apply_of_ne_of_ne (by omega) (by omega)
    · simp only [List.length_cons]
      rw [block_places_succ, block_places_succ, List.map_cons, List.map_cons,
        Equiv.swap_apply_left, Equiv.swap_apply_right]
      have htail : (block_places (c0 + 1 + 1) l.length).map (Equiv.swap c0 (c0 + 1))
          = block_places (c0 + 1 + 1) l.length := by
        have := List.map_congr_left (l := block_places (c0 + 1 + 1) l.length)
          (f := (Equiv.swap c0 (c0 + 1) : Nat → Nat)) (g := id)
          (fun p hp => Equiv.swap_apply_of_ne_of_ne
            (by have := block_places_ge _ _ p hp; omega)
            (by have := block_places_ge _ _ p hp; omega))
        rw [this, List.map_id]
      rw [htail]
      exact List.Perm.swap (c0 + 1) c0 _
    · simp only [sel_arcs, List.map_append, cand_arcs_map_rename,
        Equiv.swap_apply_left, Equiv.swap_apply_right]
      have htail : (sel_arcs ts sa ea (c0 + 1 + 1) l).map
          (arc_rename (Equiv.swap c0 (c0 + 1)))
            = sel_arcs ts sa ea (c0 + 1 + 1) l := by
        have := List.map_congr_left (l := sel_arcs ts sa ea (c0 + 1 + 1) l)
          (f := arc_rename (Equiv.swap c0 (c0 + 1))) (g := id)
          (fun a ha => arc_rename_fix _ a (Equiv.swap_apply_of_ne_of_ne
            (by have := sel_arcs_place_ge ts sa ea l (c0 + 1 + 1) a ha; omega)
            (by have := sel_arcs_place_ge ts sa ea l (c0 + 1 + 1) a ha; omega)))
        rw [this, List.map_id]
      rw [htail]
      rw [← List.append_assoc, ← List.append_assoc]
      exact List.perm_append_comm.append_right _
    · intro q
      simp only [init_contrib]
      by_cases hq0 : q = c0
      · subst hq0
        rw [Equiv.swap_apply_left]
        rw [if_neg (by omega), if_pos rfl, if_pos rfl, if_neg (by omega)]
        rw [init_contrib_lt sa l (q + 1 + 1) (q + 1) (by omega),
          init_contrib_lt sa l (q + 1 + 1) q (by omega)]
        omega
      · by_cases hq1 : q = c0 + 1
        · subst hq1
          rw [Equiv.swap_apply_right]
          rw [if_pos rfl, if_neg (by omega), if_neg (by omega), if_pos rfl]
          rw [init_contrib_lt sa l (c0 + 1 + 1) (c0 + 1) (by omega),
            init_contrib_lt sa l (c0 + 1 + 1) c0 (by omega)]
          omega
        · rw [Equiv.swap_apply_of_ne_of_ne hq0 hq1]
          simp only [if_neg hq0, if_neg hq1]
    · intro q
      simp only [final_contrib]
      by_cases hq0 : q = c0
      · subst hq0
        rw [Equiv.swap_apply_left]
        rw [if_neg (by omega), if_pos rfl, if_pos rfl, if_neg (by omega)]
        rw [final_contrib_lt ea l (q + 1 + 1) (q + 1) (by omega),
          final_contrib_lt ea l (q + 1 + 1) q (by omega)]
        omega
      · by_cases hq1 : q = c0 + 1
        · subst hq1
          rw [Equiv.swap_apply_right]
          rw [if_pos rfl, if_neg (by omega), if_neg (by omega), if_pos rfl]
          rw [final_contrib_lt ea l (c0 + 1 + 1) (c0 + 1) (by omega),
            final_contrib_lt ea l (c0 + 1 + 1) c0 (by omega)]
          omega
        · rw [Equiv.swap_apply_of_ne_of_ne hq0 hq1]
          simp only [if_neg hq0, if_neg hq1]
  | trans h12 h23 ih12 ih23 =>
    intro c0
    obtain ⟨r12, hlo12, hhi12, hblock12, harcs12, hinit12, hfin12⟩ := ih12 c0
    obtain ⟨r23, hlo23, hhi23, hblock23, harcs23, hinit23, hfin23⟩ := ih23 c0
    have hlen := h12.length_eq
    rw [← hlen] at hhi23 hblock23
    refine ⟨r12.trans r23, ?_, ?_, ?_, ?_, ?_, ?_⟩
    · intro q hq
      simp only [Equiv.trans_apply]
      rw [hlo12 q hq, hlo23 q hq]
    · intro q hq
      simp only [Equiv.trans_apply]
      rw [hhi12 q hq, hhi23 q hq]
    · have hstep := hblock12.map (r23 : Nat → Nat)
      rw [List.map_map] at hstep
      have hcomp : ((r23 : Nat → Nat) ∘ (r12 : Nat → Nat))
          = ((r12.trans r23 : Equiv.Perm Nat) : Nat → Nat) := by
        funext q
        simp [Equiv.trans_apply, Function.comp]
      rw [hcomp] at hstep
      exact hblock23.trans hstep
    · have hstep := harcs12.map (arc_rename (r23 : Nat → Nat))
      rw [List.map_map] at hstep
      have hcomp : (arc_rename (r23 : Nat → Nat) ∘ arc_rename (r12 : Nat → Nat))
          = arc_rename ((r12.trans r23 : Equiv.Perm Nat) : Nat → Nat) := by
        funext a
        rw [Function.comp_apply, arc_rename_comp]
        congr 1
      rw [hcomp] at hstep
      exact harcs23.trans hstep
    · intro q
      simp only [Equiv.trans_apply]
      rw [hinit23 (r12 q), hinit12 q]
    · intro q
      simp only [Equiv.trans_apply]
      rw [hfin23 (r12 q), hfin12 q]

/-- C8: the assembly is deterministic up to renaming of the fresh place ids.
The only run-to-run variation of the source is the iteration order of the
selected-candidate hash set, so for any two orderings of the same candidates
the two nets agree: identical transitions (the labeled and silent transition
multiset), and a place-id bijection carrying places, arcs and the
initial/final markings of one net onto the other. -/
theorem discovery_assembly_deterministic_up_to_place_renaming
    (acts : List String) (sel1 sel2 : List (List Nat × List Nat)) (sa ea : Nat)
    (hperm : sel1.Perm sel2) (hv : valid_sel (tid_block 0 acts) sa ea sel1) :
    ∃ pn1 pn2 : PetriNet, ∃ rho : Equiv.Perm Nat, ∃ m1 m2 fm1 fm2 : Nat → Nat,
      build_net acts sel1 sa ea = some pn1 ∧
      build_net acts sel2 sa ea = some pn2 ∧
      pn2.transitions = pn1.transitions ∧
      pn2.places.Perm (pn1.places.map rho) ∧
      pn2.arcs.Perm (pn1.arcs.map (arc_rename rho)) ∧
      pn1.initial_marking = some m1 ∧ pn2.initial_marking = some m2 ∧
      (∀ q, m2 (rho q) = m1 q) ∧
      pn1.final_markings = some [fm1] ∧ pn2.final_markings = some [fm2] ∧
      (∀ q, fm2 (rho q) = fm1 q) := by
  have hv2 : valid_sel (tid_block 0 acts) sa ea sel2 :=
    fun c hc => hv c (hperm.mem_iff.mpr hc)
  obtain ⟨rho, hlo, hhi, hblock, harcs, hinit, hfin⟩ :=
    sel_perm_block_equiv (tid_block 0 acts) sa ea hperm (nonres_count acts)
  have h1 := build_net_spec acts sel1 sa ea hv
  have h2 := build_net_spec acts sel2 sa ea hv2
  have hlen := hperm.length_eq
  refine ⟨_, _, rho, _, _, _, _, h1, h2, ?_, ?_, ?_, rfl, rfl, ?_, rfl, rfl, ?_⟩
  · have harcs' : (pre_sweep_net acts sel2 sa ea).arcs.Perm
        (((pre_sweep_net acts sel1 sa ea).arcs).map (arc_rename rho)) := harcs
    exact List.filter_congr
      (fun tl _ => by rw [is_orphan_silent_rename _ _ _ tl harcs'])
  · show (block_places (nonres_count acts) sel2.length).Perm
      ((block_places (nonres_count acts) sel1.length).map rho)
    rw [← hlen]
    exact hblock
  · exact harcs
  · exact hinit
  · exact hfin

/-- Witness for `discovery_assembly_deterministic_up_to_place_renaming` on a
two-candidate selection and its reversal. -/
theorem discovery_assembly_deterministic_witness :
    ∃ pn1 pn2 : PetriNet, ∃ rho : Equiv.Perm Nat, ∃ m1 m2 fm1 fm2 : Nat → Nat,
      build_net ["a", "b"] [([0], [1]), ([5], [0])] 5 6 = some pn1 ∧
      build_net ["a", "b"] [([5], [0]), ([0], [1])] 5 6 = some pn2 ∧
      pn2.transitions = pn1.transitions ∧
      pn2.places.Perm (pn1.places.map rho) ∧
      pn2.arcs.Perm (pn1.arcs.map (arc_rename rho)) ∧
      pn1.initial_marking = some m1 ∧ pn2.initial_marking = some m2 ∧
      (∀ q, m2 (rho q) = m1 q) ∧
      pn1.final_markings = some [fm1] ∧ pn2.final_markings = some [fm2] ∧
      (∀ q, fm2 (rho q) = fm1 q) :=
  discovery_assembly_deterministic_up_to_place_renaming ["a", "b"]
    [([0], [1]), ([5], [0])] [([5], [0]), ([0], [1])] 5 6
    (by decide) (by simp only [valid_sel, valid_cnd]; decide)
